import Mathlib

/-!
Shallow embedding of the distributed-scheduler core of the k8s-1m repository,
with proofs checking the natural-language specification against the code.

Each definition is translated from one Go function of the source tree
(file and symbol named in its doc comment).  Machine integers are modelled
as `Nat`/`Int` with explicit `% 2^32` where Go would wrap; fallible or
panicking code returns `Option`.
-/

set_option maxHeartbeats 1000000

/- ================================================================
   pkg/util/address.go — NewCountDownLatch and the two latch kinds
   ================================================================ -/

/-- Latch models the two implementations behind `util.CountDownLatch`:
`CountDownLatchAsWaitGroup` (a `sync.WaitGroup` holding `pending` un-done
members) and `CountDownLatchAsMutex` (a signed counter; `Wait` returns once
the counter is at most zero). -/
inductive Latch where
  | asWaitGroup (pending : Int)
  | asMutex (count : Int)
deriving DecidableEq, Repr

/-- newCountDownLatch embeds `util.NewCountDownLatch(n, ratio)`.
The source takes `ratio` as a `float64`; we model it as a rational.  For the
ratios exercised here (dyadic rationals and 1.0) the float computation
`int(float64(n) * ratio)` is exact, and Go `int()` truncation coincides with
the floor for the non-negative ratios of the spec.  The threshold `0.999999`
is the source literal. -/
def newCountDownLatch (n : Nat) (rat : ℚ) : Latch :=
  if 999999/1000000 < rat then Latch.asWaitGroup n
  else Latch.asMutex (Int.floor ((n : ℚ) * rat))

/-- Latch.done embeds one `Done()` call on either latch kind. -/
def Latch.done : Latch → Latch
  | Latch.asWaitGroup p => Latch.asWaitGroup (p - 1)
  | Latch.asMutex c => Latch.asMutex (c - 1)

/-- Latch.doneTimes applies `Done()` `d` times. -/
def Latch.doneTimes (l : Latch) : Nat → Latch
  | 0 => l
  | d + 1 => l.done.doneTimes d

/-- Latch.waitReturns holds when `Wait()` returns without blocking:
a WaitGroup waits until its counter is exactly zero, while the mutex latch
returns as soon as `count <= 0`. -/
def Latch.waitReturns : Latch → Bool
  | Latch.asWaitGroup p => p == 0
  | Latch.asMutex c => c ≤ 0

/- ================================================================
   pkg/distpermit/distpermit.go — SendScore
   ================================================================ -/

/-- RpcResult is the outcome of the unary `CollectScore` RPC as seen by the
caller: an error or a reply carrying the permit boolean. -/
inductive RpcResult where
  | rpcError
  | ok (permit : Bool)
deriving DecidableEq, Repr

/-- SendScoreOutcome records what `SendScore` returned and whether the
CollectScore response was awaited (false on the fire-and-forget path and on
the early connection-failure return). -/
structure SendScoreOutcome where
  permit : Bool
  awaitedResponse : Bool
deriving DecidableEq, Repr

/-- sendScore embeds `distpermit.SendScore`: connection setup failure
returns false before anything is sent; a zero score fires the RPC in a
goroutine and returns false without awaiting the response; an RPC error
denies; otherwise the reply's permit boolean is returned verbatim. -/
def sendScore (connSetupOk : Bool) (score : Int) (resp : RpcResult) : SendScoreOutcome :=
  if !connSetupOk then ⟨false, false⟩
  else if score = 0 then ⟨false, false⟩
  else
    match resp with
    | RpcResult.rpcError => ⟨false, true⟩
    | RpcResult.ok p => ⟨p, true⟩

/- ================================================================
   Name-based log sampling — webhook handleWebhook, DistScheduler
   ProcessOne, podServiceServer.UnmarshalPodRaw
   ================================================================ -/

/-- goIdx embeds Go string indexing `s[i]`: `none` models the runtime
panic on an out-of-range (in particular negative) index.  Pod names are
ASCII, so bytes and characters coincide. -/
def goIdx (s : List Char) (i : Int) : Option Char :=
  if i < 0 then none else s[i.toNat]?

/-- logSampleCheck embeds the expression
`pod.Name[len(pod.Name)-1] == '0' && pod.Name[len(pod.Name)-2] == '0'`
shared by `webhook.handleWebhook`, `DistScheduler.ProcessOne` and
`podServiceServer.UnmarshalPodRaw`.  Go `&&` short-circuits, so the second
index is evaluated only when the last byte is `'0'`.  `none` models a
panic. -/
def logSampleCheck (name : List Char) : Option Bool :=
  match goIdx name ((name.length : Int) - 1) with
  | none => none
  | some c1 =>
    if c1 = '0' then
      match goIdx name ((name.length : Int) - 2) with
      | none => none
      | some c2 => some (c2 = '0')
    else some false

/- ================================================================
   pkg/schedulerset/endpointslices.go — SchedulerSet
   ================================================================ -/

/-- EndpointItem mirrors `schedulerset.EndpointItem`. -/
structure EndpointItem where
  podName : String
  addresses : List String
deriving DecidableEq, Repr

/-- relayPfx is the source constant ` RelayPrefix = "dist-scheduler-relay"`. -/
def relayPfx : String := "dist-scheduler-relay"

/-- SchedulerSet mirrors the fields of `schedulerset.SchedulerSet` relevant
to the membership queries.  The endpoint-slice cache is a list of slices,
each a list of endpoints, standing for the name-keyed map (the claims
proved below do not depend on the map's iteration order). -/
structure SchedulerSet where
  cache : List (List EndpointItem)
  podName : String
  fanOut : Nat
  leader : String
  allowSolo : Bool
deriving DecidableEq, Repr

/-- cacheMembers embeds `EndpointSliceCache.GetMembers`: all endpoints of
all cached slices. -/
def cacheMembers (s : SchedulerSet) : List EndpointItem :=
  s.cache.flatten

/-- cacheMemberCount embeds `EndpointSliceCache.GetMemberCount`: the sum of
the slice sizes. -/
def cacheMemberCount (s : SchedulerSet) : Nat :=
  (s.cache.map List.length).sum

/-- getMemberCount embeds `SchedulerSet.GetMemberCount`: the cache count,
replaced by 1 when the cache is empty and solo mode is allowed. -/
def getMemberCount (s : SchedulerSet) : Nat :=
  if cacheMemberCount s = 0 ∧ s.allowSolo then 1 else cacheMemberCount s

/-- getMembers embeds `SchedulerSet.GetMembers`: the cached endpoints, or
the synthetic loopback self-entry when the cache is empty and solo mode is
allowed. -/
def getMembers (s : SchedulerSet) : List EndpointItem :=
  if cacheMembers s = [] ∧ s.allowSolo then [⟨s.podName, ["127.0.0.1"]⟩]
  else cacheMembers s

/-- getMemberCountNoRelays embeds `SchedulerSet.GetMemberCountNoRelays`:
it counts the non-relay endpoints of the raw cache (note: not of
`GetMembers`, so solo mode does not apply here). -/
def getMemberCountNoRelays (s : SchedulerSet) : Nat :=
  (cacheMembers s).countP (fun m => !(relayPfx.isPrefixOf m.podName))

/-- sortKey embeds the relay re-prefixing inside `podNameSort`: relay pod
names have an `"a"` prepended so that they sort before scheduler names. -/
def sortKey (a : String) : String :=
  if relayPfx.isPrefixOf a then "a" ++ a else a

/-- podNameSortCmp embeds `SchedulerSet.podNameSort`: the leader sorts
first, then everything by the re-prefixed lexicographic order. -/
def podNameSortCmp (leader a b : String) : Int :=
  if a = leader then -1
  else if b = leader then 1
  else
    match compare (sortKey a) (sortKey b) with
    | Ordering.lt => -1
    | Ordering.eq => 0
    | Ordering.gt => 1

/-- insertSorted inserts an element into a list sorted by `le`. -/
def insertSorted (le : α → α → Bool) (x : α) : List α → List α
  | [] => [x]
  | y :: ys => if le x y then x :: y :: ys else y :: insertSorted le x ys

/-- sortByCmp is a structural insertion sort. -/
def sortByCmp (le : α → α → Bool) : List α → List α
  | [] => []
  | x :: xs => insertSorted le x (sortByCmp le xs)

/-- sortMembersList embeds `SchedulerSet.sortMembers` (`slices.SortFunc`
with `podNameSort`); with unique pod names the comparator is a strict total
order, so the sorted result does not depend on the sorting algorithm and a
structural insertion sort is a faithful model. -/
def sortMembersList (leader : String) (ms : List EndpointItem) : List EndpointItem :=
  sortByCmp (fun a b => podNameSortCmp leader a.podName b.podName ≤ 0) ms

/-- fnv1Hash embeds the hash used by `GetTargetForScoring`:
`hash/fnv.New32()` is 32-bit FNV-1, which multiplies by the FNV prime
before xoring in each byte. -/
def fnv1Hash (key : String) : Nat :=
  key.data.foldl (fun h c => ((h * 16777619) % 4294967296) ^^^ c.toNat) 2166136261

/-- fnv1aHash is 32-bit FNV-1a, the hash the specification names
(`fnv1a_32`): each byte is xored in before the multiply.  It is defined
here only to compare the spec's words against the code. -/
def fnv1aHash (key : String) : Nat :=
  key.data.foldl (fun h c => ((h ^^^ c.toNat) * 16777619) % 4294967296) 2166136261

/-- getTargetForScoring embeds `SchedulerSet.GetTargetForScoring`: a single
member is returned directly; otherwise the members are sorted and indexed
by the FNV-1 hash of the key modulo the member count.  `none` models the
panic on an empty membership (modulo by zero). -/
def getTargetForScoring (s : SchedulerSet) (key : String) : Option EndpointItem :=
  let members := getMembers s
  if members.length = 1 then members[0]?
  else
    let sorted := sortMembersList s.leader members
    sorted[(fnv1Hash key) % members.length]?

/-- getSubMembersAt embeds the slice computation of
`SchedulerSet.GetSubMembers` for the peer at position `index` of the sorted
membership: empty for memberships of size at most one, else the slice
`[index*10+1, min(index*10+1+fanOut, len))` (the start offset is the
hard-coded literal 10 of the source; only the width uses `fanOut`). -/
def getSubMembersAt (members : List String) (index fanOut : Nat) : List String :=
  if members.length ≤ 1 then []
  else
    let start := index * 10 + 1
    if members.length ≤ start then []
    else
      let stop := min (start + fanOut) members.length
      (members.drop start).take (stop - start)

/-- subMembersUnion concatenates the sub-member lists of every peer of the
sorted membership, each peer computing its slice at its own index. -/
def subMembersUnion (members : List String) (fanOut : Nat) : List String :=
  (List.range members.length).flatMap (fun i => getSubMembersAt members i fanOut)

/- ================================================================
   pkg/scoreevaluator/scoreevaluator.go — ScoreEvaluator
   ================================================================ -/

/-- Score mirrors `scoreevaluator.Score`. -/
structure Score where
  nodeName : String
  score : Int
deriving DecidableEq, Repr

/-- evalCandidatesStep is one iteration of the candidate-selection loop of
`oneEvaluator.fire`: a new best score resets the list, a tie appends
(capped at 100 entries), and a lower score is ignored. -/
def evalCandidatesStep (acc : Int × List Score) (sc : Score) : Int × List Score :=
  if acc.1 < sc.score then (sc.score, [sc])
  else if sc.score = acc.1 then
    (acc.1, if acc.2.length < 100 then acc.2 ++ [sc] else acc.2)
  else acc

/-- evalCandidates embeds the candidate-selection loop of
`oneEvaluator.fire`: a fold tracking the best score seen (initially -1) and
the list of scores tied for best. -/
def evalCandidates (scores : List Score) : List Score :=
  (scores.foldl evalCandidatesStep ((-1 : Int), ([] : List Score))).2

/-- evalWinner embeds the winner selection
`candidates[rand.Intn(len(candidates))]` of `oneEvaluator.fire`, with `r`
the random draw; `none` models the panic of `rand.Intn(0)` / indexing an
empty candidate list. -/
def evalWinner (scores : List Score) (r : Nat) : Option Score :=
  (evalCandidates scores)[r]?

/-- collectScorePermit embeds the reply of `podServiceServer.CollectScore`:
`permit = (highestScore.NodeName == score.NodeName)`, where `winner` is the
evaluator's chosen highest score returned by `RecordAndWait` to every
caller of the same evaluator instance. -/
def collectScorePermit (winner reported : Score) : Bool :=
  winner.nodeName == reported.nodeName

/-- evalPermits collects, for one evaluator instance that recorded exactly
`scores` (one `CollectScore` call per entry) and fired with random draw
`r`, the permit boolean sent back to each caller. -/
def evalPermits (scores : List Score) (r : Nat) : List Bool :=
  match evalWinner scores r with
  | none => []
  | some w => scores.map (fun s => collectScorePermit w s)

/-- startOneEvaluatorLimit embeds the `limit` captured by
`startOneEvaluator`: `schedulerSet.GetMemberCountNoRelays()` at creation
time. -/
def startOneEvaluatorLimit (s : SchedulerSet) : Nat :=
  getMemberCountNoRelays s

/-- recordFiresEarly embeds the quorum test of `RecordAndWait` after
appending the caller's score: `len(o.scores) >= int(o.limit)`. -/
def recordFiresEarly (limit numScores : Nat) : Bool :=
  limit ≤ numScores

/- ================================================================
   Node partitioner — updateNodeLabels (leader only)
   ================================================================ -/

/-- NodeMeta is the node metadata the partitioner reads: the node name and
the current value of the scheduler-group label, if any. -/
structure NodeMeta where
  name : String
  label : Option String
deriving DecidableEq, Repr

/-- schedulersOf embeds the relay filter at the top of `updateNodeLabels`:
`slices.DeleteFunc` removing endpoints whose pod name has the relay
prefix. -/
def schedulersOf (members : List EndpointItem) : List EndpointItem :=
  members.filter (fun m => !(relayPfx.isPrefixOf m.podName))

/-- schedulerGroups is the list of group keys of `nodeCountPerGroup`: the
pod names of the non-relay members. -/
def schedulerGroups (members : List EndpointItem) : List String :=
  (schedulersOf members).map (fun m => m.podName)

/-- desiredCount embeds `int(math.Ceil(float64(len(nodeList)) /
float64(len(schedulers))))`, exact for any realistic inventory size
(below 2^52 nodes). -/
def desiredCount (numNodes numGroups : Nat) : Nat :=
  (numNodes + numGroups - 1) / numGroups

/-- bump increments a count map at one group key. -/
def bump (f : String → Nat) (g : String) : String → Nat :=
  fun x => if x = g then f x + 1 else f x

/-- firstPassStep is one iteration of the first loop of
`updateNodeLabels`: a node whose current label names a known group that is
still short keeps its label (the group's count is incremented); every other
node is appended to the move list. -/
def firstPassStep (groups : List String) (desired : Nat)
    (acc : (String → Nat) × List NodeMeta) (n : NodeMeta) :
    (String → Nat) × List NodeMeta :=
  match n.label with
  | some g =>
    if g ∈ groups ∧ acc.1 g < desired then (bump acc.1 g, acc.2)
    else (acc.1, acc.2 ++ [n])
  | none => (acc.1, acc.2 ++ [n])

/-- firstPass embeds the first loop of `updateNodeLabels`; counts start at
zero for every group. -/
def firstPass (groups : List String) (desired : Nat) (nodes : List NodeMeta) :
    (String → Nat) × List NodeMeta :=
  nodes.foldl (firstPassStep groups desired) ((fun _ => 0), [])

/-- secondPass embeds the second loop of `updateNodeLabels`: the node at
global move-list index `i` is assigned to `shortGroups[i % len]`; when that
group reaches the desired count it is deleted (`slices.Delete`) at the same
index.  `none` models the division-by-zero panic of `i % 0` on an empty
short-group list. -/
def secondPass (desired : Nat) (toMove : List NodeMeta) (i : Nat)
    (counts : String → Nat) (sg : List String) : Option (String → Nat) :=
  match toMove with
  | [] => some counts
  | _ :: rest =>
    match sg[i % sg.length]? with
    | none => none
    | some g =>
      let c2 := bump counts g
      let sg2 := if desired ≤ c2 g then sg.eraseIdx (i % sg.length) else sg
      secondPass desired rest (i + 1) c2 sg2

/-- firstPassOf runs the first pass on the scheduler groups derived from
the membership. -/
def firstPassOf (members : List EndpointItem) (nodes : List NodeMeta) :
    (String → Nat) × List NodeMeta :=
  firstPass (schedulerGroups members)
    (desiredCount nodes.length (schedulerGroups members).length) nodes

/-- shortGroupsOf is the set of groups still short after the first pass, in
scheduler-list order.  The source builds this list by iterating a Go map,
whose order is unspecified; theorems below therefore quantify over every
permutation of this list. -/
def shortGroupsOf (members : List EndpointItem) (nodes : List NodeMeta) : List String :=
  (schedulerGroups members).filter
    (fun g => (firstPassOf members nodes).1 g <
      desiredCount nodes.length (schedulerGroups members).length)

/-- updateNodeLabelsRun embeds one run of `updateNodeLabels` over a node
snapshot, returning the final per-group counts; `sg0` is the short-group
list in the (unspecified) map-iteration order.  `none` models the
skip-everything branch when there are no scheduler groups. -/
def updateNodeLabelsRun (members : List EndpointItem) (nodes : List NodeMeta)
    (sg0 : List String) : Option (String → Nat) :=
  let groups := schedulerGroups members
  if groups = [] then none
  else
    let desired := desiredCount nodes.length groups.length
    let fp := firstPass groups desired nodes
    if fp.2 = [] then some fp.1
    else if sg0 = [] then some fp.1
    else secondPass desired fp.2 0 fp.1 sg0

/-- isFixedPoint holds when a run of the partitioner moves no node: every
node already carries a label of a known, still-short group, so the move
list after the first pass is empty ("Moved 0 nodes"). -/
def isFixedPoint (members : List EndpointItem) (nodes : List NodeMeta) : Bool :=
  (firstPassOf members nodes).2 = []

/- ================================================================
   Concrete sample inputs used by counterexamples and witnesses
   ================================================================ -/

/-- sampleSet3 is a membership of three scheduler endpoints with no relays
and an outside leader. -/
def sampleSet3 : SchedulerSet :=
  ⟨[[⟨"s1", []⟩, ⟨"s2", []⟩, ⟨"s3", []⟩]], "s1", 10, "", false⟩

/-- sampleSolo is a peer with an empty endpoint cache and solo mode
allowed. -/
def sampleSolo : SchedulerSet := ⟨[], "selfpod", 10, "", true⟩

/-- sampleMembers12 is a sorted membership of twelve distinct pod names. -/
def sampleMembers12 : List String :=
  ["m00", "m01", "m02", "m03", "m04", "m05", "m06", "m07", "m08", "m09", "m10", "m11"]

/-- fpMembers is a three-scheduler membership for the partitioner. -/
def fpMembers : List EndpointItem := [⟨"s1", []⟩, ⟨"s2", []⟩, ⟨"s3", []⟩]

/-- fpNodes is a four-node inventory whose labels already form a fixed
point of the partitioner: two nodes on s1, two on s2, none on s3. -/
def fpNodes : List NodeMeta :=
  [⟨"n1", some "s1"⟩, ⟨"n2", some "s1"⟩, ⟨"n3", some "s2"⟩, ⟨"n4", some "s2"⟩]

/-- runMembers is a two-scheduler membership for a full partitioner run. -/
def runMembers : List EndpointItem := [⟨"s1", []⟩, ⟨"s2", []⟩]

/-- runNodes is an inventory with one unlabeled node, one correctly
labeled node and one node labeled with an unknown group. -/
def runNodes : List NodeMeta :=
  [⟨"n1", none⟩, ⟨"n2", some "s1"⟩, ⟨"n3", some "zzz"⟩]

/- ================================================================
   Theorems
   ================================================================ -/

/-- C8: `SendScore` returns false whenever the score is 0 (the CollectScore
call is fire-and-forget and its response is never awaited), false whenever
connection setup or the RPC fails, and otherwise exactly the permit boolean
of the CollectScore response. -/
theorem sendScore_permit_semantics (conn : Bool) (s : Int) (hs : s ≠ 0)
    (resp : RpcResult) (p : Bool) :
    sendScore conn 0 resp = ⟨false, false⟩ ∧
    (sendScore false s resp).permit = false ∧
    (sendScore conn s RpcResult.rpcError).permit = false ∧
    sendScore true s (RpcResult.ok p) = ⟨p, true⟩ := by
  refine ⟨?_, ?_, ?_, ?_⟩ <;> cases conn <;> cases resp <;> simp [sendScore, hs]

/-- Witness for C8 at score 5: a zero score is denied without awaiting, a
failed connection and a failed RPC are denied, and an ok reply is returned
verbatim. -/
theorem sendScore_permit_semantics_witness :
    sendScore true 0 RpcResult.rpcError = ⟨false, false⟩ ∧
    (sendScore false 5 RpcResult.rpcError).permit = false ∧
    (sendScore true 5 RpcResult.rpcError).permit = false ∧
    sendScore true 5 (RpcResult.ok true) = ⟨true, true⟩ :=
  sendScore_permit_semantics true 5 (by decide) RpcResult.rpcError true

/-- Helper for C10: with a name of at least two characters both indices are
in range, so the sampling check cannot panic. -/
theorem logSampleCheck_isSome_of_two_le (name : List Char) (h : 2 ≤ name.length) :
    (logSampleCheck name).isSome = true := by
  unfold logSampleCheck goIdx
  have h1 : ¬((name.length : Int) - 1 < 0) := by omega
  have h2 : ¬((name.length : Int) - 2 < 0) := by omega
  have e1 : ((name.length : Int) - 1).toNat = name.length - 1 := by omega
  have e2 : ((name.length : Int) - 2).toNat = name.length - 2 := by omega
  have g1 : name.length - 1 < name.length := by omega
  have g2 : name.length - 2 < name.length := by omega
  rw [if_neg h1, if_neg h2, e1, e2, List.getElem?_eq_getElem g1,
    List.getElem?_eq_getElem g2]
  by_cases hc : name[name.length - 1] = '0' <;> simp [hc]

/-- C10 counterexample: the one-character pod name "a" is shorter than two
characters, yet the sampling check evaluates to `some false` without any
out-of-bounds access, because `&&` short-circuits after the last byte
fails the comparison with '0'. -/
theorem logSampleCheck_short_name_no_panic :
    ("a".data).length < 2 ∧ logSampleCheck ("a".data) = some false := by decide

/-- C10 amended: the sampling check
`pod.Name[len-1] == '0' && pod.Name[len-2] == '0'` panics exactly on the
empty name (first index out of range) and on the one-character name "0"
(short-circuit passes, second index out of range); in particular it is
total for every name of at least two characters. -/
theorem logSampleCheck_panic_iff (name : List Char) :
    logSampleCheck name = none ↔ name = [] ∨ name = ['0'] := by
  constructor
  · intro h
    match name with
    | [] => exact Or.inl rfl
    | [c] =>
      by_cases hc : c = '0'
      · exact Or.inr (by rw [hc])
      · exact absurd h (by simp [logSampleCheck, goIdx, hc])
    | c1 :: c2 :: rest =>
      have h2 : 2 ≤ (c1 :: c2 :: rest).length := by simp
      have := logSampleCheck_isSome_of_two_le (c1 :: c2 :: rest) h2
      rw [h] at this
      exact absurd this (by simp)
  · intro h
    rcases h with h | h <;> rw [h] <;> decide

/-- C7 counterexample: with an empty membership in solo mode the evaluator
limit captured by `startOneEvaluator` is `GetMemberCountNoRelays()` of the
raw cache, which is 0 — not 1 as the claim states. -/
theorem soloMode_limit_not_one :
    startOneEvaluatorLimit sampleSolo = 0 ∧ (0 : Nat) ≠ 1 := by decide

/-- C7 amended: with an empty membership and solo mode enabled,
`member_count()` is 1, `members()` is the single loopback self-entry,
`target_for_scoring` returns self for every key, and the evaluator limit is
0 (not 1) — so the evaluator still fires immediately on the first recorded
score, since 1 >= 0. -/
theorem soloMode_behavior (pod ldr key : String) (fo : Nat) :
    getMemberCount ⟨[], pod, fo, ldr, true⟩ = 1 ∧
    getMembers ⟨[], pod, fo, ldr, true⟩ = [⟨pod, ["127.0.0.1"]⟩] ∧
    getTargetForScoring ⟨[], pod, fo, ldr, true⟩ key = some ⟨pod, ["127.0.0.1"]⟩ ∧
    startOneEvaluatorLimit ⟨[], pod, fo, ldr, true⟩ = 0 ∧
    recordFiresEarly (startOneEvaluatorLimit ⟨[], pod, fo, ldr, true⟩) 1 = true :=
  ⟨rfl, rfl, rfl, rfl, rfl⟩

/-- Helper for C2: d Done() calls on the mutex latch leave count c - d. -/
theorem Latch.doneTimes_asMutex (c : Int) (d : Nat) :
    (Latch.asMutex c).doneTimes d = Latch.asMutex (c - d) := by
  induction d generalizing c with
  | zero => simp [Latch.doneTimes]
  | succ k ih =>
    show ((Latch.asMutex c).done).doneTimes k = _
    rw [show (Latch.asMutex c).done = Latch.asMutex (c - 1) from rfl, ih]
    congr 1
    push_cast
    ring

/-- Helper for C2: d Done() calls on the WaitGroup latch leave n - d
pending members. -/
theorem Latch.doneTimes_asWaitGroup (c : Int) (d : Nat) :
    (Latch.asWaitGroup c).doneTimes d = Latch.asWaitGroup (c - d) := by
  induction d generalizing c with
  | zero => simp [Latch.doneTimes]
  | succ k ih =>
    show ((Latch.asWaitGroup c).done).doneTimes k = _
    rw [show (Latch.asWaitGroup c).done = Latch.asWaitGroup (c - 1) from rfl, ih]
    congr 1
    push_cast
    ring

/-- C2 counterexample: with n = 3 and ratio 1/2 the code's latch has
initial count `int(3 * 0.5) = 1` and fires after a single Done() call,
whereas the claim's threshold is the ceiling, 2. -/
theorem countDownLatch_ceil_counterexample :
    ((newCountDownLatch 3 (1/2)).doneTimes 1).waitReturns = true ∧
    ⌈(3 : ℚ) * (1/2)⌉ = 2 ∧ (1 : ℤ) < 2 := by
  refine ⟨?_, ?_, by norm_num⟩
  · have h : newCountDownLatch 3 (1/2) = Latch.asMutex 1 := by
      unfold newCountDownLatch
      rw [if_neg (by norm_num)]
      norm_num
    rw [h]
    decide
  · rw [Int.ceil_eq_iff]
    norm_num

/-- C2 amended: for ratio at most the source threshold 0.999999 the latch
fires exactly when `int(n * ratio)` (truncation, i.e. the floor for
non-negative ratios) Done() calls have been observed — not the ceiling —
and for ratio above the threshold (in particular ratio 1.0) it waits for
all n Done() calls. -/
theorem countDownLatch_fires (n d : Nat) (rat : ℚ) :
    (rat ≤ 999999/1000000 →
      (((newCountDownLatch n rat).doneTimes d).waitReturns = true ↔
        Int.floor ((n : ℚ) * rat) ≤ (d : Int))) ∧
    (999999/1000000 < rat → d ≤ n →
      (((newCountDownLatch n rat).doneTimes d).waitReturns = true ↔ d = n)) := by
  constructor
  · intro h
    rw [newCountDownLatch, if_neg (not_lt.mpr h), Latch.doneTimes_asMutex]
    show decide _ = true ↔ _
    rw [decide_eq_true_iff]
    omega
  · intro h hd
    rw [newCountDownLatch, if_pos h, Latch.doneTimes_asWaitGroup]
    show ((n : Int) - d == 0) = true ↔ d = n
    rw [beq_iff_eq]
    omega

/-- Witness for C2 at n = 4, ratio 1/2, d = 2: the mutex-latch count is
`int(4 * 0.5) = 2`, so the latch has fired after two Done() calls. -/
theorem countDownLatch_fires_witness :
    ((newCountDownLatch 4 (1/2)).doneTimes 2).waitReturns = true :=
  ((countDownLatch_fires 4 2 (1/2)).1 (by norm_num)).mpr (by norm_num)

/-- Helper for C9: once the candidate list is non-empty it never becomes
empty again, and while it is empty the tracked best score is still the
initial -1, so any score of at least -1 creates a candidate. -/
theorem candidates_fold_ne_nil (l : List Score) :
    ∀ acc : Int × List Score,
      (acc.2 ≠ [] ∨ ∃ sc ∈ l, acc.1 ≤ sc.score) →
      (l.foldl evalCandidatesStep acc).2 ≠ [] := by
  induction l with
  | nil =>
    intro acc h
    rcases h with h | ⟨sc, hm, -⟩
    · exact h
    · exact absurd hm (List.not_mem_nil sc)
  | cons c t ih =>
    intro acc h
    rw [List.foldl_cons]
    by_cases hlt : acc.1 < c.score
    · exact ih _ (Or.inl (by simp [evalCandidatesStep, hlt]))
    · by_cases heq : c.score = acc.1
      · refine ih _ (Or.inl ?_)
        simp only [evalCandidatesStep, if_neg hlt, if_pos heq]
        by_cases hlen : acc.2.length < 100
        · simp [hlen]
        · have : acc.2 ≠ [] := by
            intro hnil
            rw [hnil] at hlen
            exact hlen (by norm_num)
          simpa [hlen] using this
      · have hstep : evalCandidatesStep acc c = acc := by
          simp [evalCandidatesStep, hlt, heq]
        rw [hstep]
        rcases h with h | ⟨sc, hm, hle⟩
        · exact ih _ (Or.inl h)
        · rcases List.mem_cons.mp hm with rfl | hm2
          · omega
          · exact ih _ (Or.inr ⟨sc, hm2, hle⟩)

/-- C9 counterexample: the claim says a candidate always exists once at
least one score is recorded, but a single recorded score below the -1
sentinel produces an empty candidate list (so the selection would still
panic). -/
theorem fire_candidates_negative_score_empty :
    evalCandidates [⟨"n1", -2⟩] = [] ∧ ([⟨"n1", -2⟩] : List Score) ≠ [] := by
  decide

/-- C9 amended: firing with an empty score list (a deadline timer on an
evaluator that never recorded a score) selects from an empty candidate
list and panics; with at least one recorded score of value at least -1 —
in particular any of the non-negative scores this system sends — the
candidate list is non-empty. -/
theorem fire_candidates_spec (scores : List Score) (r : Nat)
    (h : ∃ sc ∈ scores, -1 ≤ sc.score) :
    evalWinner [] r = none ∧ evalCandidates scores ≠ [] := by
  constructor
  · rfl
  · exact candidates_fold_ne_nil scores ((-1 : Int), []) (Or.inr h)

/-- Witness for C9 at a single zero score: firing on the empty list
panics, and the candidate list for the score list [("n1", 0)] is
non-empty. -/
theorem fire_candidates_spec_witness :
    evalWinner [] 0 = none ∧ evalCandidates [⟨"n1", 0⟩] ≠ [] :=
  fire_candidates_spec [⟨"n1", 0⟩] 0 ⟨⟨"n1", 0⟩, by decide, by decide⟩

/-- Helper for C1: every candidate is one of the recorded scores. -/
theorem candidates_fold_subset (l : List Score) :
    ∀ acc : Int × List Score, ∀ x ∈ (l.foldl evalCandidatesStep acc).2,
      x ∈ acc.2 ∨ x ∈ l := by
  induction l with
  | nil => exact fun acc x hx => Or.inl hx
  | cons c t ih =>
    intro acc x hx
    rw [List.foldl_cons] at hx
    rcases ih _ x hx with hstep | ht
    · unfold evalCandidatesStep at hstep
      by_cases hlt : acc.1 < c.score
      · rw [if_pos hlt] at hstep
        have hxc : x = c := List.mem_singleton.mp hstep
        exact Or.inr (by rw [hxc]; exact List.mem_cons_self c t)
      · rw [if_neg hlt] at hstep
        by_cases heq : c.score = acc.1
        · rw [if_pos heq] at hstep
          by_cases hlen : acc.2.length < 100
          · rw [if_pos hlen] at hstep
            rcases List.mem_append.mp hstep with hm | hm
            · exact Or.inl hm
            · have hxc : x = c := List.mem_singleton.mp hm
              exact Or.inr (by rw [hxc]; exact List.mem_cons_self c t)
          · rw [if_neg hlen] at hstep
            exact Or.inl hstep
        · rw [if_neg heq] at hstep
          exact Or.inl hstep
    · exact Or.inr (List.mem_cons_of_mem c ht)

/-- Helper for C1: in a score list whose node names are pairwise distinct,
at most one entry can compare equal to any fixed node name. -/
theorem count_node_match_le_one (l : List Score) (a : String)
    (hnd : (l.map Score.nodeName).Nodup) :
    (l.map (fun s => a == s.nodeName)).count true ≤ 1 := by
  induction l with
  | nil => simp
  | cons s t ih =>
    rw [List.map_cons, List.nodup_cons] at hnd
    rw [List.map_cons]
    by_cases ha : a = s.nodeName
    · have hz : (t.map (fun x => a == x.nodeName)).count true = 0 := by
        rw [List.count_eq_zero]
        intro hmem
        rcases List.mem_map.mp hmem with ⟨x, hx, hbx⟩
        have hax : a = x.nodeName := beq_iff_eq.mp hbx
        have hxm : x.nodeName ∈ t.map Score.nodeName :=
          List.mem_map_of_mem Score.nodeName hx
        rw [← hax, ha] at hxm
        exact hnd.1 hxm
      have hhead : (a == s.nodeName) = true := beq_iff_eq.mpr ha
      rw [hhead, List.count_cons, hz]
      simp
    · have hb : (a == s.nodeName) = false := by
        simpa using ha
      rw [hb, List.count_cons]
      simpa using ih hnd.2

/-- C1 counterexample: an evaluator whose two recorded scores both name
node "N1" (score 7) fires with winner node "N1", and both CollectScore
replies for the same pod key carry permit=true. -/
theorem collectScore_two_permits :
    evalPermits [⟨"N1", 7⟩, ⟨"N1", 7⟩] 0 = [true, true] ∧
    (evalPermits [⟨"N1", 7⟩, ⟨"N1", 7⟩] 0).count true = 2 ∧ ¬(2 ≤ (1 : Nat)) := by
  decide

/-- C1 amended: for one evaluator instance that fired with winner w, the
winner is one of the recorded scores, a caller's reply carries permit=true
exactly when its reported node equals the winner's node, and when the
reported node names are pairwise distinct at most one CollectScore reply
carries permit=true. -/
theorem collectScore_winner_unique (scores : List Score) (r : Nat) (w : Score)
    (hnd : (scores.map Score.nodeName).Nodup)
    (hw : evalWinner scores r = some w) :
    w ∈ scores ∧
    (∀ s ∈ scores, (collectScorePermit w s = true ↔ s.nodeName = w.nodeName)) ∧
    (evalPermits scores r).count true ≤ 1 := by
  have hwc : w ∈ evalCandidates scores := by
    have := List.getElem?_mem hw
    exact this
  refine ⟨?_, ?_, ?_⟩
  · rcases candidates_fold_subset scores ((-1 : Int), []) w hwc with h | h
    · exact absurd h (List.not_mem_nil w)
    · exact h
  · intro s hs
    unfold collectScorePermit
    rw [beq_iff_eq]
    exact ⟨fun h => h.symm, fun h => h.symm⟩
  · unfold evalPermits
    rw [hw]
    unfold collectScorePermit
    exact count_node_match_le_one scores w.nodeName hnd

/-- Witness for C1 at two distinct-node scores: the winner ("b", 2) is a
recorded score and at most one reply carries permit=true. -/
theorem collectScore_winner_unique_witness :
    (⟨"b", 2⟩ : Score) ∈ ([⟨"a", 1⟩, ⟨"b", 2⟩] : List Score) ∧
    (evalPermits [⟨"a", 1⟩, ⟨"b", 2⟩] 0).count true ≤ 1 :=
  ⟨(collectScore_winner_unique [⟨"a", 1⟩, ⟨"b", 2⟩] 0 ⟨"b", 2⟩ (by decide) (by decide)).1,
    (collectScore_winner_unique [⟨"a", 1⟩, ⟨"b", 2⟩] 0 ⟨"b", 2⟩ (by decide) (by decide)).2.2⟩

/-- C4 counterexample: for the three-member set and key "k", the code
(which hashes with `fnv.New32()`, i.e. FNV-1) picks member "s2"
(FNV-1("k") mod 3 = 1), while the spec's FNV-1a formula picks "s1"
(FNV-1a("k") mod 3 = 0). -/
theorem targetForScoring_fnv1a_counterexample :
    getTargetForScoring sampleSet3 "k" = some ⟨"s2", []⟩ ∧
    (sortMembersList sampleSet3.leader
        (getMembers sampleSet3))[(fnv1aHash "k") % (getMembers sampleSet3).length]? =
      some ⟨"s1", []⟩ ∧
    (⟨"s2", []⟩ : EndpointItem) ≠ ⟨"s1", []⟩ := by
  decide

/-- C4 amended: for any membership snapshot with at least two members,
`GetTargetForScoring(key)` returns the sorted members indexed by the
32-bit FNV-1 hash (not FNV-1a) of the key modulo the member count, and for
a snapshot with exactly one member it returns that member directly without
hashing. -/
theorem targetForScoring_spec (s : SchedulerSet) (key : String) :
    (2 ≤ (getMembers s).length →
      getTargetForScoring s key =
        (sortMembersList s.leader (getMembers s))[(fnv1Hash key) % (getMembers s).length]?) ∧
    ((getMembers s).length = 1 → getTargetForScoring s key = (getMembers s)[0]?) := by
  constructor
  · intro h
    simp only [getTargetForScoring]
    rw [if_neg (by omega)]
  · intro h
    simp only [getTargetForScoring]
    rw [if_pos h]

/-- Witness for C4 on the three-member set and key "k". -/
theorem targetForScoring_spec_witness :
    getTargetForScoring sampleSet3 "k" =
      (sortMembersList sampleSet3.leader
        (getMembers sampleSet3))[(fnv1Hash "k") % (getMembers sampleSet3).length]? :=
  (targetForScoring_spec sampleSet3 "k").1 (by decide)

/-- Helper for C3: two adjacent slices of the same list concatenate to one
slice. -/
theorem sliceTake_append (l : List String) (a b c : Nat) (hab : a ≤ b) (hbc : b ≤ c) :
    (l.drop a).take (b - a) ++ (l.drop b).take (c - b) = (l.drop a).take (c - a) := by
  have hc : c - a = (b - a) + (c - b) := by omega
  have hd : (l.drop a).drop (b - a) = l.drop b := by
    rw [List.drop_drop]
    congr 1
    omega
  rw [hc, List.take_add, hd]

/-- Helper for C3: with fan-out 10, the first k peers' sub-member slices
concatenate, in index order, to the slice of the sorted membership from
position 1 up to `min (k*10+1) M`. -/
theorem subMembers_blocks (l : List String) (k : Nat) :
    (List.range k).flatMap (fun i => getSubMembersAt l i 10) =
      (l.drop 1).take (min (k * 10 + 1) l.length - 1) := by
  induction k with
  | zero =>
    have h0 : min (0 * 10 + 1) l.length - 1 = 0 := by omega
    rw [h0]
    simp
  | succ k ih =>
    rw [List.range_succ, List.flatMap_append, ih]
    simp only [List.flatMap_cons, List.flatMap_nil, List.append_nil]
    by_cases hL : l.length ≤ 1
    · have hd : l.drop 1 = [] := by
        cases l with
        | nil => rfl
        | cons x xs =>
          simp at hL
          simp [hL]
      rw [hd]
      simp only [getSubMembersAt]
      rw [if_pos hL]
      simp
    · push_neg at hL
      by_cases hs : l.length ≤ k * 10 + 1
      · have hb : getSubMembersAt l k 10 = [] := by
          simp only [getSubMembersAt]
          rw [if_neg (by omega), if_pos hs]
        rw [hb, List.append_nil]
        have m1 : min (k * 10 + 1) l.length - 1 = l.length - 1 := by omega
        have m2 : min ((k + 1) * 10 + 1) l.length - 1 = l.length - 1 := by omega
        rw [m1, m2]
      · push_neg at hs
        have hb : getSubMembersAt l k 10 =
            (l.drop (k * 10 + 1)).take (min (k * 10 + 1 + 10) l.length - (k * 10 + 1)) := by
          simp only [getSubMembersAt]
          rw [if_neg (by omega), if_neg (by omega)]
        rw [hb]
        have m1 : min (k * 10 + 1) l.length = k * 10 + 1 := by omega
        rw [m1]
        have e : (k + 1) * 10 + 1 = k * 10 + 1 + 10 := by ring
        rw [e]
        exact sliceTake_append l 1 (k * 10 + 1) (min (k * 10 + 1 + 10) l.length)
          (by omega) (by omega)

/-- C3 counterexample: with fan-out 5 (the claim quantifies over every
fan_out, but the slice start is the hard-coded stride 10), the sorted
member at index 6 of a 12-member set belongs to no peer's sub-member list,
so the union is not all of members_sorted[1..M-1]. -/
theorem subMembers_fanOut5_misses :
    "m06" ∈ sampleMembers12.drop 1 ∧ "m06" ∉ subMembersUnion sampleMembers12 5 := by
  decide

/-- C3 amended: with fan_out = 10 (the value the program always passes, and
the only value matching the hard-coded stride 10 of the slice start), the
concatenation of all peers' sub-member lists in index order is exactly
members_sorted[1..M-1]; in particular, for a duplicate-free membership no
member appears in two different peers' lists. -/
theorem subMembers_cover (members : List String) (hnd : members.Nodup) :
    subMembersUnion members 10 = members.drop 1 ∧ (subMembersUnion members 10).Nodup := by
  have he : subMembersUnion members 10 = members.drop 1 := by
    unfold subMembersUnion
    rw [subMembers_blocks]
    have hm : min (members.length * 10 + 1) members.length - 1 = members.length - 1 := by
      omega
    rw [hm, ← List.length_drop]
    exact List.take_length _
  refine ⟨he, ?_⟩
  rw [he]
  exact (List.drop_sublist 1 members).nodup hnd

/-- Witness for C3 on a 12-member sorted membership with fan-out 10. -/
theorem subMembers_cover_witness :
    subMembersUnion sampleMembers12 10 = sampleMembers12.drop 1 :=
  (subMembers_cover sampleMembers12 (by decide)).1

/-- Helper: bump at the bumped key. -/
theorem bump_self (f : String → Nat) (g : String) : bump f g g = f g + 1 := by
  simp [bump]

/-- Helper: bump at any other key. -/
theorem bump_ne (f : String → Nat) (g x : String) (h : x ≠ g) : bump f g x = f x := by
  simp [bump, h]

/-- Helper: the sum of a map over the distinct zero-initialized count keys. -/
theorem map_zero_sum (l : List String) : (l.map (fun _ => (0 : Nat))).sum = 0 := by
  induction l with
  | nil => rfl
  | cons a t ih => simp [ih]

/-- Helper: bumping one key of a duplicate-free key list increments the
summed counts by exactly one. -/
theorem sum_map_bump : ∀ (l : List String) (f : String → Nat) (g : String),
    l.Nodup → g ∈ l → (l.map (bump f g)).sum = (l.map f).sum + 1 := by
  intro l
  induction l with
  | nil => intro f g _ hg; cases hg
  | cons a t ih =>
    intro f g hnd hg
    rw [List.nodup_cons] at hnd
    rw [List.map_cons, List.map_cons, List.sum_cons, List.sum_cons]
    rcases List.mem_cons.mp hg with hga | hgt
    · have ht : t.map (bump f g) = t.map f :=
        List.map_congr_left (fun x hx =>
          bump_ne f g x (fun hxg => hnd.1 (by rw [← hga, ← hxg]; exact hx)))
      rw [ht, ← hga, bump_self]
      omega
    · have hag : a ≠ g := fun h => hnd.1 (h ▸ hgt)
      rw [bump_ne f g a hag, ih f g hnd.2 hgt]
      omega

/-- Helper: bumping one still-short key of a duplicate-free key list
decreases the summed remaining capacity by exactly one. -/
theorem sum_map_sub_bump : ∀ (l : List String) (f : String → Nat) (g : String) (d : Nat),
    l.Nodup → g ∈ l → f g < d →
    (l.map (fun h => d - bump f g h)).sum + 1 = (l.map (fun h => d - f h)).sum := by
  intro l
  induction l with
  | nil => intro f g d _ hg; cases hg
  | cons a t ih =>
    intro f g d hnd hg hfg
    rw [List.nodup_cons] at hnd
    rw [List.map_cons, List.map_cons, List.sum_cons, List.sum_cons]
    rcases List.mem_cons.mp hg with hga | hgt
    · have ht : (t.map (fun h => d - bump f g h)) = t.map (fun h => d - f h) :=
        List.map_congr_left (fun x hx => by
          rw [bump_ne f g x (fun hxg => hnd.1 (by rw [← hga, ← hxg]; exact hx))])
      rw [ht, ← hga, bump_self]
      omega
    · have hag : a ≠ g := fun h => hnd.1 (h ▸ hgt)
      rw [bump_ne f g a hag]
      have := ih f g d hnd.2 hgt hfg
      omega

/-- Helper: if every key holds at least d, the summed counts are at least
length * d. -/
theorem mul_le_sum_map : ∀ (l : List String) (f : String → Nat) (d : Nat),
    (∀ g ∈ l, d ≤ f g) → l.length * d ≤ (l.map f).sum := by
  intro l
  induction l with
  | nil => intro f d _; simp
  | cons a t ih =>
    intro f d h
    rw [List.map_cons, List.sum_cons, List.length_cons, Nat.add_mul, Nat.one_mul]
    have h1 := ih f d (fun g hg => h g (List.mem_cons_of_mem a hg))
    have h2 := h a (List.mem_cons_self a t)
    omega

/-- Helper: if every key is at most d, remaining capacity plus the summed
counts is exactly length * d. -/
theorem sum_sub_add_sum : ∀ (l : List String) (f : String → Nat) (d : Nat),
    (∀ g ∈ l, f g ≤ d) →
    (l.map (fun g => d - f g)).sum + (l.map f).sum = l.length * d := by
  intro l
  induction l with
  | nil => intro f d _; simp
  | cons a t ih =>
    intro f d h
    rw [List.map_cons, List.map_cons, List.sum_cons, List.sum_cons, List.length_cons,
      Nat.add_mul, Nat.one_mul]
    have h1 := ih f d (fun g hg => h g (List.mem_cons_of_mem a hg))
    have h2 := h a (List.mem_cons_self a t)
    omega

/-- Helper: dropping the keys on which f vanishes does not change the sum. -/
theorem filter_map_sum_eq (p : String → Bool) (f : String → Nat) :
    ∀ l : List String, (∀ g ∈ l, p g = false → f g = 0) →
    ((l.filter p).map f).sum = (l.map f).sum := by
  intro l
  induction l with
  | nil => intro _; rfl
  | cons a t ih =>
    intro h
    have ht := ih (fun g hg => h g (List.mem_cons_of_mem a hg))
    by_cases hp : p a
    · rw [List.filter_cons_of_pos hp, List.map_cons, List.map_cons, List.sum_cons,
        List.sum_cons, ht]
    · have hfa : f a = 0 := h a (List.mem_cons_self a t) (by simpa using hp)
      rw [List.filter_cons_of_neg (by simpa using hp), List.map_cons, List.sum_cons,
        hfa, ht]
      omega

/-- Helper: the ceiling division satisfies n <= G * ceil(n / G). -/
theorem le_mul_desired (n G : Nat) (hG : 0 < G) : n ≤ G * desiredCount n G := by
  unfold desiredCount
  have h1 := Nat.div_add_mod (n + G - 1) G
  have h2 : (n + G - 1) % G < G := Nat.mod_lt _ hG
  generalize hq : (n + G - 1) / G = q at h1 ⊢
  generalize hr : (n + G - 1) % G = r at h1 h2
  generalize hM : G * q = M at h1 ⊢
  omega

/-- Helper: a list is a permutation of its element at index i consed onto
the list with index i erased. -/
theorem perm_get_cons_eraseIdx (l : List String) (i : Nat) (h : i < l.length) :
    l.Perm (l[i] :: l.eraseIdx i) :=
  (List.perm_cons_erase (List.getElem_mem h)).trans
    ((List.erase_getElem h).cons l[i])

/-- Helper: across the first pass, the summed group counts plus the length
of the move list grow by exactly one per node processed. -/
theorem firstPass_go_sum (groups : List String) (desired : Nat) (hnd : groups.Nodup) :
    ∀ (nodes : List NodeMeta) (acc : (String → Nat) × List NodeMeta),
      (groups.map (nodes.foldl (firstPassStep groups desired) acc).1).sum +
        (nodes.foldl (firstPassStep groups desired) acc).2.length =
      (groups.map acc.1).sum + acc.2.length + nodes.length := by
  intro nodes
  induction nodes with
  | nil => intro acc; simp
  | cons n t ih =>
    intro acc
    rw [List.foldl_cons, ih (firstPassStep groups desired acc n), List.length_cons]
    cases hnl : n.label with
    | none =>
      simp only [firstPassStep, hnl, List.length_append, List.length_cons,
        List.length_nil]
      omega
    | some g =>
      simp only [firstPassStep, hnl]
      by_cases hc : g ∈ groups ∧ acc.1 g < desired
      · rw [if_pos hc]
        have := sum_map_bump groups acc.1 g hnd hc.1
        simp only [this]
        omega
      · rw [if_neg hc]
        simp only [List.length_append, List.length_cons, List.length_nil]
        omega

/-- Helper: the first pass never pushes a group count past the desired
bound. -/
theorem firstPass_go_bound (groups : List String) (desired : Nat) :
    ∀ (nodes : List NodeMeta) (acc : (String → Nat) × List NodeMeta) (g : String),
      acc.1 g ≤ desired →
      ((nodes.foldl (firstPassStep groups desired) acc).1) g ≤ desired := by
  intro nodes
  induction nodes with
  | nil => intro acc g h; exact h
  | cons n t ih =>
    intro acc g h
    rw [List.foldl_cons]
    apply ih
    cases hnl : n.label with
    | none => simpa [firstPassStep, hnl] using h
    | some g0 =>
      simp only [firstPassStep, hnl]
      by_cases hc : g0 ∈ groups ∧ acc.1 g0 < desired
      · rw [if_pos hc]
        show bump acc.1 g0 g ≤ desired
        by_cases hgg : g = g0
        · rw [hgg, bump_self]
          omega
        · rw [bump_ne acc.1 g0 g hgg]
          exact h
      · rw [if_neg hc]
        exact h

/-- Helper: the summed counts after the first pass plus the move-list
length equal the number of nodes. -/
theorem firstPass_sum (groups : List String) (desired : Nat) (nodes : List NodeMeta)
    (hnd : groups.Nodup) :
    (groups.map (firstPass groups desired nodes).1).sum +
      (firstPass groups desired nodes).2.length = nodes.length := by
  have h := firstPass_go_sum groups desired hnd nodes ((fun _ => 0), [])
  unfold firstPass
  rw [h]
  simp [map_zero_sum]

/-- Helper: after the first pass every group count is at most desired. -/
theorem firstPass_bound (groups : List String) (desired : Nat) (nodes : List NodeMeta)
    (g : String) : (firstPass groups desired nodes).1 g ≤ desired :=
  firstPass_go_bound groups desired nodes ((fun _ => 0), []) g (Nat.zero_le _)

/-- Helper: the second pass, started with enough remaining capacity on a
duplicate-free short-group list (every entry a still-short known group),
completes without panicking, assigns every moved node to exactly one known
group, and never pushes a count past desired. -/
theorem secondPass_spec (groups : List String) (desired : Nat) (hgnd : groups.Nodup) :
    ∀ (toMove : List NodeMeta) (i : Nat) (counts : String → Nat) (sg : List String),
      sg.Nodup → (∀ g ∈ sg, g ∈ groups) → (∀ g ∈ sg, counts g < desired) →
      toMove.length ≤ (sg.map (fun g => desired - counts g)).sum →
      ∃ cf, secondPass desired toMove i counts sg = some cf ∧
        (groups.map cf).sum = (groups.map counts).sum + toMove.length ∧
        ∀ g, counts g ≤ desired → cf g ≤ desired := by
  intro toMove
  induction toMove with
  | nil =>
    intro i counts sg _ _ _ _
    exact ⟨counts, rfl, by simp, fun g h => h⟩
  | cons n rest ih =>
    intro i counts sg hsnd hsub hlt hcap
    have hsgne : sg ≠ [] := by
      intro h
      rw [h] at hcap
      simp at hcap
    have hlen : 0 < sg.length := List.length_pos.mpr hsgne
    have hidx : i % sg.length < sg.length := Nat.mod_lt _ hlen
    have hgs : sg[i % sg.length]? = some sg[i % sg.length] :=
      List.getElem?_eq_getElem hidx
    have hgmem : sg[i % sg.length] ∈ sg := List.getElem_mem hidx
    have hcg : counts sg[i % sg.length] < desired := hlt _ hgmem
    simp only [secondPass, hgs]
    by_cases hfull : desired ≤ bump counts (sg[i % sg.length]) (sg[i % sg.length])
    · rw [if_pos hfull]
      rw [bump_self] at hfull
      have hperm : sg.Perm (sg[i % sg.length] :: sg.eraseIdx (i % sg.length)) :=
        perm_get_cons_eraseIdx sg (i % sg.length) hidx
      have hnd2 : (sg[i % sg.length] :: sg.eraseIdx (i % sg.length)).Nodup :=
        (hperm.nodup_iff).mp hsnd
      have hgnotin : sg[i % sg.length] ∉ sg.eraseIdx (i % sg.length) :=
        (List.nodup_cons.mp hnd2).1
      have hsnd2 : (sg.eraseIdx (i % sg.length)).Nodup := (List.nodup_cons.mp hnd2).2
      have hmem_of : ∀ h ∈ sg.eraseIdx (i % sg.length), h ∈ sg := fun h hm =>
        hperm.symm.subset (List.mem_cons_of_mem _ hm)
      have hsub2 : ∀ g ∈ sg.eraseIdx (i % sg.length), g ∈ groups := fun g hm =>
        hsub g (hmem_of g hm)
      have hlt2 : ∀ g ∈ sg.eraseIdx (i % sg.length),
          bump counts (sg[i % sg.length]) g < desired := by
        intro g hm
        have hne : g ≠ sg[i % sg.length] := fun he => hgnotin (by rw [← he]; exact hm)
        rw [bump_ne counts _ g hne]
        exact hlt g (hmem_of g hm)
      have hcap2 : rest.length ≤
          ((sg.eraseIdx (i % sg.length)).map
            (fun h => desired - bump counts (sg[i % sg.length]) h)).sum := by
        have hsumeq :
            ((sg[i % sg.length] :: sg.eraseIdx (i % sg.length)).map
              (fun h => desired - counts h)).sum =
            (sg.map (fun h => desired - counts h)).sum :=
          ((hperm.map (fun h => desired - counts h)).sum_eq).symm
        rw [List.map_cons, List.sum_cons] at hsumeq
        have hmapeq : (sg.eraseIdx (i % sg.length)).map
              (fun h => desired - bump counts (sg[i % sg.length]) h) =
            (sg.eraseIdx (i % sg.length)).map (fun h => desired - counts h) :=
          List.map_congr_left (fun x hx => by
            rw [bump_ne counts _ x (fun he => hgnotin (by rw [← he]; exact hx))])
        rw [hmapeq]
        rw [List.length_cons] at hcap
        omega
      obtain ⟨cf, heq, hsum2, hbound⟩ :=
        ih (i + 1) (bump counts (sg[i % sg.length])) (sg.eraseIdx (i % sg.length))
          hsnd2 hsub2 hlt2 hcap2
      refine ⟨cf, heq, ?_, ?_⟩
      · rw [hsum2, sum_map_bump groups counts _ hgnd (hsub _ hgmem), List.length_cons]
        omega
      · intro x hx
        apply hbound
        by_cases hxg : x = sg[i % sg.length]
        · rw [hxg, bump_self]
          omega
        · rw [bump_ne counts _ x hxg]
          exact hx
    · rw [if_neg hfull]
      rw [bump_self] at hfull
      have hlt2 : ∀ g ∈ sg, bump counts (sg[i % sg.length]) g < desired := by
        intro g hm
        by_cases hh : g = sg[i % sg.length]
        · rw [hh, bump_self]
          omega
        · rw [bump_ne counts _ g hh]
          exact hlt g hm
      have hcap2 : rest.length ≤
          (sg.map (fun h => desired - bump counts (sg[i % sg.length]) h)).sum := by
        have := sum_map_sub_bump sg counts (sg[i % sg.length]) desired hsnd hgmem hcg
        rw [List.length_cons] at hcap
        omega
      obtain ⟨cf, heq, hsum2, hbound⟩ :=
        ih (i + 1) (bump counts (sg[i % sg.length])) sg hsnd hsub hlt2 hcap2
      refine ⟨cf, heq, ?_, ?_⟩
      · rw [hsum2, sum_map_bump groups counts _ hgnd (hsub _ hgmem), List.length_cons]
        omega
      · intro x hx
        apply hbound
        by_cases hxg : x = sg[i % sg.length]
        · rw [hxg, bump_self]
          omega
        · rw [bump_ne counts _ x hxg]
          exact hx

/-- C6: after a single run of the partitioner's two-pass assignment over
any node list and non-empty (duplicate-free) scheduler set, the run
completes, every node is counted toward exactly one group — the group
counts sum to the number of nodes — and no group's count exceeds
desired = ceil(nodes / schedulers).  The short-group list may be visited
in any order (the source iterates a Go map), so the theorem quantifies
over every permutation. -/
theorem updateNodeLabels_partition (members : List EndpointItem) (nodes : List NodeMeta)
    (sg0 : List String)
    (hnd : (schedulerGroups members).Nodup)
    (hne : schedulerGroups members ≠ [])
    (hsg : sg0.Perm (shortGroupsOf members nodes)) :
    ∃ cf, updateNodeLabelsRun members nodes sg0 = some cf ∧
      ((schedulerGroups members).map cf).sum = nodes.length ∧
      ∀ g ∈ schedulerGroups members,
        cf g ≤ desiredCount nodes.length (schedulerGroups members).length := by
  simp only [shortGroupsOf, firstPassOf] at hsg
  simp only [updateNodeLabelsRun]
  rw [if_neg hne]
  set groups := schedulerGroups members with hgdef
  set desired := desiredCount nodes.length groups.length with hddef
  set fp := firstPass groups desired nodes with hfpdef
  have hGpos : 0 < groups.length := List.length_pos.mpr hne
  have hsum1 : (groups.map fp.1).sum + fp.2.length = nodes.length :=
    firstPass_sum groups desired nodes hnd
  have hbound1 : ∀ g, fp.1 g ≤ desired := fun g => firstPass_bound groups desired nodes g
  have hng : nodes.length ≤ groups.length * desired :=
    le_mul_desired nodes.length groups.length hGpos
  by_cases hmv : fp.2 = []
  · rw [if_pos hmv]
    refine ⟨fp.1, rfl, ?_, fun g _ => hbound1 g⟩
    rw [hmv] at hsum1
    simpa using hsum1
  · rw [if_neg hmv]
    by_cases hsg0 : sg0 = []
    · exfalso
      have hfil : groups.filter (fun g => fp.1 g < desired) = [] := by
        rw [hsg0] at hsg
        exact (hsg.nil_eq).symm
      have hall : ∀ g ∈ groups, desired ≤ fp.1 g := by
        intro g hgm
        by_contra hclt
        push_neg at hclt
        have hmem : g ∈ groups.filter (fun g => fp.1 g < desired) :=
          List.mem_filter.mpr ⟨hgm, by simpa using hclt⟩
        rw [hfil] at hmem
        exact List.not_mem_nil g hmem
      have hsumge : groups.length * desired ≤ (groups.map fp.1).sum :=
        mul_le_sum_map groups fp.1 desired hall
      have hmvlen : 0 < fp.2.length := List.length_pos.mpr hmv
      generalize hA : groups.length * desired = A at hsumge hng
      omega
    · rw [if_neg hsg0]
      have hsnd : sg0.Nodup := (hsg.nodup_iff).mpr (hnd.filter _)
      have hsub : ∀ g ∈ sg0, g ∈ groups := fun g hm =>
        (List.mem_filter.mp (hsg.subset hm)).1
      have hlt : ∀ g ∈ sg0, fp.1 g < desired := fun g hm => by
        have := (List.mem_filter.mp (hsg.subset hm)).2
        simpa using this
      have hcap : fp.2.length ≤ (sg0.map (fun g => desired - fp.1 g)).sum := by
        have hps : (sg0.map (fun g => desired - fp.1 g)).sum =
            ((groups.filter (fun g => fp.1 g < desired)).map
              (fun g => desired - fp.1 g)).sum :=
          (hsg.map (fun g => desired - fp.1 g)).sum_eq
        have hfs : ((groups.filter (fun g => decide (fp.1 g < desired))).map
              (fun g => desired - fp.1 g)).sum =
            (groups.map (fun g => desired - fp.1 g)).sum :=
          filter_map_sum_eq (fun g => decide (fp.1 g < desired))
            (fun g => desired - fp.1 g) groups
            (fun g _ hp => by
              have h2 : ¬ fp.1 g < desired := by simpa using hp
              show desired - fp.1 g = 0
              omega)
        have hcomp := sum_sub_add_sum groups fp.1 desired (fun g _ => hbound1 g)
        rw [hps, hfs]
        generalize hA : groups.length * desired = A at hcomp hng
        omega
      obtain ⟨cf, heq, hsum2, hbound2⟩ :=
        secondPass_spec groups desired hnd fp.2 0 fp.1 sg0 hsnd hsub hlt hcap
      refine ⟨cf, heq, ?_, fun g _ => hbound2 g (hbound1 g)⟩
      rw [hsum2]
      omega

/-- Witness for C6 on a two-scheduler membership and a three-node
inventory: the run completes. -/
theorem updateNodeLabels_partition_witness :
    (updateNodeLabelsRun runMembers runNodes (shortGroupsOf runMembers runNodes)).isSome
      = true := by
  obtain ⟨cf, heq, -, -⟩ :=
    updateNodeLabels_partition runMembers runNodes (shortGroupsOf runMembers runNodes)
      (by decide) (by decide) (List.Perm.refl _)
  rw [heq]
  rfl

/-- C5 counterexample: a fixed point of the partitioner (a run that moves
no node) with groups s1, s2, s3 holding 2, 2, 0 nodes: the largest group
minus the smallest is 2, not at most 1.  With 4 nodes and 3 schedulers,
desired = 2, and both labeled groups stay below it during the first pass,
so nothing moves. -/
theorem partition_fixed_point_unbalanced :
    isFixedPoint fpMembers fpNodes = true ∧
    ((schedulerGroups fpMembers).map (firstPassOf fpMembers fpNodes).1).max? = some 2 ∧
    ((schedulerGroups fpMembers).map (firstPassOf fpMembers fpNodes).1).min? = some 0 ∧
    ¬((2 : Nat) - 0 ≤ 1) := by
  decide

/-- C5 amended: at a fixed point of the partitioner (a run that moves no
node), every node is counted (the group counts sum to the number of nodes)
and no group exceeds desired = ceil(nodes / schedulers); the claimed gap
bound max - min <= 1 does not hold in general, because a fixed point may
leave a group far below desired. -/
theorem partition_fixed_point_bound (members : List EndpointItem) (nodes : List NodeMeta)
    (hnd : (schedulerGroups members).Nodup)
    (hfix : isFixedPoint members nodes = true) :
    ((schedulerGroups members).map (firstPassOf members nodes).1).sum = nodes.length ∧
    ∀ g ∈ schedulerGroups members, (firstPassOf members nodes).1 g ≤
      desiredCount nodes.length (schedulerGroups members).length := by
  have hfix2 : (firstPassOf members nodes).2 = [] := by
    simpa [isFixedPoint] using hfix
  constructor
  · have h := firstPass_sum (schedulerGroups members)
      (desiredCount nodes.length (schedulerGroups members).length) nodes hnd
    simp only [firstPassOf] at hfix2 ⊢
    rw [hfix2] at h
    simpa using h
  · intro g _
    simp only [firstPassOf]
    exact firstPass_bound _ _ nodes g

/-- Witness for C5 at the concrete fixed point: all four nodes are
counted. -/
theorem partition_fixed_point_bound_witness :
    ((schedulerGroups fpMembers).map (firstPassOf fpMembers fpNodes).1).sum =
      fpNodes.length :=
  (partition_fixed_point_bound fpMembers fpNodes (by decide) (by decide)).1
